import Mathlib

/-!
Verification development for the live speech-to-keystrokes client
(`text_inserter.py`, `websocket_client.py`, `speech_recognition_app.py`).

Strings are modelled as lists of characters (`Str`), Python byte buffers as
lists of naturals.  Each Python function used by the claims is translated
into an executable Lean definition; stateful methods become explicit
state-passing functions that also return the sequence of characters (or
frames) they emit.
-/

/-! ## Definitions: shallow embedding of the Python source -/

abbrev Str := List Char

/-- Whitespace test of Python `str` methods (`split`, `strip` with no
argument): space, tab, newline, carriage return, vertical tab, form feed. -/
def pyIsSpace (c : Char) : Bool :=
  c == ' ' || c == '\t' || c == '\n' || c == '\r' || c == '\x0b' || c == '\x0c'

/-- Python `s.lstrip()`. -/
def pyStripLeft (s : Str) : Str := s.dropWhile pyIsSpace

/-- Python `s.rstrip()`. -/
def pyStripRight (s : Str) : Str := (s.reverse.dropWhile pyIsSpace).reverse

/-- Python `s.strip()`. -/
def pyStrip (s : Str) : Str := pyStripLeft (pyStripRight s)

/-- Helper for `pySplit`: `acc` holds the current word reversed. -/
def pySplitAux : Str → Str → List Str
  | [], acc => if acc = [] then [] else [acc.reverse]
  | c :: rest, acc =>
    if pyIsSpace c then
      if acc = [] then pySplitAux rest []
      else acc.reverse :: pySplitAux rest []
    else pySplitAux rest (c :: acc)

/-- Python `s.split()` (no argument): split on runs of whitespace,
discarding empty pieces. -/
def pySplit (s : Str) : List Str := pySplitAux s []

/-- Python `sep.join(parts)`. -/
def pyJoin (sep : Str) : List Str → Str
  | [] => []
  | [w] => w
  | w :: ws => w ++ sep ++ pyJoin sep ws

/-- One pass of Python `s.replace("  ", " ")`: replace non-overlapping
occurrences of two spaces by one, left to right. -/
def replaceTwoSpace : Str → Str
  | [] => []
  | [c] => [c]
  | c :: d :: rest =>
    if c = ' ' ∧ d = ' ' then ' ' :: replaceTwoSpace rest
    else c :: replaceTwoSpace (d :: rest)

/-- Python `"  " in s`: some two adjacent characters are both spaces. -/
def hasTwoSpace : Str → Bool
  | [] => false
  | [_] => false
  | c :: d :: rest => (c = ' ' && d = ' ') || hasTwoSpace (d :: rest)

/-- The `while "  " in result: result = result.replace("  ", " ")` loop of
`_extract_transcription`, with an explicit iteration bound (`fuel`).  Each
iteration on a string that still contains two adjacent spaces strictly
shortens it (`replaceTwoSpace_length_lt`), so the loop exits within
`s.length` iterations; `collapseSpacesFuel_succ` shows any fuel at or above
`s.length` computes the loop's true result. -/
def collapseSpacesFuel : Nat → Str → Str
  | 0, s => s
  | fuel + 1, s => if hasTwoSpace s then collapseSpacesFuel fuel (replaceTwoSpace s) else s

/-- Result of the space-collapsing `while` loop of `_extract_transcription`. -/
def collapseSpaces (s : Str) : Str := collapseSpacesFuel s.length s

/-- Mutable state of `TextInserter`: `last_typed_text` and
`is_typing_session_active`.  The keystroke controller and the per-character
delay are external effects; a call that types text is modelled by returning
the emitted character sequence (`_type_text_slowly` emits the characters of
its argument in order, one at a time). -/
structure Inserter where
  lastTyped : Str
  sessionActive : Bool
deriving DecidableEq

/-- Python `TextInserter._clean_text` (src/text_inserter.py lines 63-78):
split into words and rejoin with single spaces; append a trailing space when
the original text ends with `" "` or with one of `"."`, `"!"`, `"?"`, `","`
followed by `" "`, unless the rejoined text already ends with a space. -/
def clean_text (text : Str) : Str :=
  let words := pySplit text
  if words = [] then []
  else
    let cleaned := pyJoin [' '] words
    if (([' '] : Str).isSuffixOf text
        || ([ '.', '!', '?', ','].any fun p => ([p, ' '] : Str).isSuffixOf text)) then
      if !(([' '] : Str).isSuffixOf cleaned) then cleaned ++ [' '] else cleaned
    else cleaned

/-- Python `TextInserter.insert_text` (src/text_inserter.py lines 19-46).
Returns the state after the call together with the characters typed. -/
def insert_text (st : Inserter) (text : Str) : Inserter × Str :=
  if text = [] then (st, [])
  else
    let cleaned := clean_text text
    if cleaned = [] then (st, [])
    else if cleaned = st.lastTyped then (st, [])
    else if st.lastTyped ≠ [] ∧ (pyStripRight st.lastTyped).isPrefixOf cleaned then
      let newPart := cleaned.drop (pyStripRight st.lastTyped).length
      if pyStrip newPart ≠ [] then ({ st with lastTyped := cleaned }, newPart)
      else (st, [])
    else ({ st with lastTyped := cleaned }, cleaned)

/-- Python `TextInserter.start_typing_session` (src/text_inserter.py). -/
def start_typing_session (_st : Inserter) : Inserter :=
  { lastTyped := [], sessionActive := true }

/-- Python `TextInserter.end_typing_session` (src/text_inserter.py). -/
def end_typing_session (st : Inserter) : Inserter :=
  { st with sessionActive := false }

/-- One element of a decoded message's `lines` list: `line.get("text")`,
which is absent (`none`) or a string (possibly empty). -/
structure MsgLine where
  text : Option Str
deriving DecidableEq

/-- Decoded inbound JSON message, restricted to the fields the client
reads: `data.get("type", "")` and `data.get("lines", [])`. -/
structure Msg where
  msgType : Str
  lines : List MsgLine
deriving DecidableEq

/-- Python truthiness of `line.get("text")`: present and non-empty. -/
def lineTruthy (t : Option Str) : Bool :=
  match t with
  | none => false
  | some s => !(s.isEmpty)

/-- Python `WebSocketClient._extract_transcription`
(src/websocket_client.py lines 104-121): collect `line["text"].strip()` for
every line whose `text` is truthy, join with a single space and strip, then
collapse double spaces until none remain. -/
def extract_transcription (m : Msg) : Str :=
  let stableTextParts := m.lines.filterMap fun l =>
    if lineTruthy l.text then some (pyStrip (l.text.getD [])) else none
  let result := if stableTextParts = [] then [] else pyStrip (pyJoin [' '] stableTextParts)
  collapseSpaces result

/-- Python `TextInserter` reached through `transcription_callback`: in this
application the callback is the bound method `text_inserter.insert_text`, so
`callback.__self__` exists and has `end_typing_session`; both `hasattr`
checks in `_handle_message` succeed.  `_handle_message`
(src/websocket_client.py lines 82-102) returns the inserter state after the
call together with the characters typed. -/
def handle_message (st : Inserter) (m : Msg) : Inserter × Str :=
  if m.msgType = "ready_to_stop".toList then
    let finalText := extract_transcription m
    if pyStrip finalText ≠ [] then
      let r := insert_text st finalText
      (end_typing_session r.1, r.2)
    else (st, [])
  else
    let transcription := extract_transcription m
    if pyStrip transcription ≠ [] then insert_text st transcription
    else (st, [])

/-- One raw inbound WebSocket message: either `json.loads` succeeds and
yields a decoded message, or it raises `json.JSONDecodeError`. -/
inductive RawMsg where
  | ok (m : Msg)
  | malformed
deriving DecidableEq

/-- Is the raw message decodable? -/
def RawMsg.isOk : RawMsg → Bool
  | .ok _ => true
  | .malformed => false

/-- The decoded message, when decodable. -/
def RawMsg.decoded : RawMsg → Option Msg
  | .ok m => some m
  | .malformed => none

/-- Python `WebSocketClient.listen_for_messages`
(src/websocket_client.py lines 67-80), as the sequence of decoded messages
actually delivered to `_handle_message` for a given inbound stream: the
`try` block wraps the whole `async for` loop, so the first message on which
`json.loads` raises ends the loop (the error is logged and swallowed) and
nothing after it is delivered. -/
def listen_delivered : List RawMsg → List Msg
  | [] => []
  | RawMsg.ok m :: rest => m :: listen_delivered rest
  | RawMsg.malformed :: _ => []

/-- Connection state of `WebSocketClient`: whether `self.websocket` is set
and the `is_connected` flag. -/
structure WSClient where
  hasSocket : Bool
  isConnected : Bool
deriving DecidableEq

/-- Result of a call to `send_audio`: the frame was sent, the call silently
did nothing, or the underlying send raised and the exception propagated. -/
inductive SendOutcome where
  | sent
  | noop
  | raised
deriving DecidableEq

/-- Python `WebSocketClient.send_audio` (src/websocket_client.py lines
49-57).  `sendOk` models whether the underlying `websocket.send` succeeds;
on failure the client sets `is_connected = False` and re-raises. -/
def send_audio (c : WSClient) (sendOk : Bool) : WSClient × SendOutcome :=
  if c.hasSocket && c.isConnected then
    if sendOk then (c, SendOutcome.sent)
    else ({ c with isConnected := false }, SendOutcome.raised)
  else (c, SendOutcome.noop)

/-- Little-endian byte encoding, Python `v.to_bytes(n, 'little')`.  Python
raises `OverflowError` when `v ≥ 256 ^ n`; the decode theorems carry that
bound as a hypothesis. -/
def toBytesLE (n v : Nat) : List Nat := (List.range n).map fun i => v / 256 ^ i % 256

/-- ASCII bytes of a literal, Python `b"..."`. -/
def asciiBytes (s : String) : List Nat := s.toList.map Char.toNat

/-- Python `WebSocketClient.create_wav_header`
(src/websocket_client.py lines 127-154): the 44-byte streaming WAV header
written field by field into a `BytesIO`. -/
def create_wav_header (sample_rate channels sample_width : Nat) : List Nat :=
  let byte_rate := sample_rate * channels * sample_width
  let block_align := channels * sample_width
  asciiBytes "RIFF" ++ toBytesLE 4 4294967295
    ++ asciiBytes "WAVE"
    ++ asciiBytes "fmt " ++ toBytesLE 4 16 ++ toBytesLE 2 1
    ++ toBytesLE 2 channels ++ toBytesLE 4 sample_rate ++ toBytesLE 4 byte_rate
    ++ toBytesLE 2 block_align ++ toBytesLE 2 (sample_width * 8)
    ++ asciiBytes "data" ++ toBytesLE 4 4294967295

/-- Environment snapshot for one iteration of the `while self.is_recording`
loop of `_stream_audio`: the value of `self.is_recording` at the loop test,
the result of `self.recorder.get_audio_chunk()` (bytes, possibly empty, or
`none`), and whether `current_time - last_send_time >= 1.0` holds at this
iteration.  An exhausted snapshot list models `is_recording` staying false
from then on. -/
structure StreamStep where
  recording : Bool
  chunk : Option (List Nat)
  flushDue : Bool
deriving DecidableEq

/-- A frame sent on the socket by `_stream_audio`: the one-time WAV header
or a raw PCM payload. -/
inductive Frame where
  | header (bytes : List Nat)
  | pcm (data : List Nat)
deriving DecidableEq

/-- Is this frame a header frame? -/
def Frame.isHeader : Frame → Bool
  | .header _ => true
  | .pcm _ => false

/-- Python truthiness of `audio_data` in `_stream_audio`: `None` and the
empty byte string are falsy; the loop then only sleeps. -/
def chunkTruthy : Option (List Nat) → Bool
  | none => false
  | some d => !d.isEmpty

/-- Python `SpeechRecognitionApp._stream_audio`
(src/speech_recognition_app.py lines 201-237), as the list of frames sent,
given the loop state `accumulated_audio` (`acc`) and `wav_header_sent`
(`sent`).  Inside the loop a flush sends the header first if not yet sent,
then the accumulated PCM; after the loop any remaining accumulated audio is
sent as raw PCM with no header check. -/
def stream_audio_go (hdr : List Nat) (acc : List Nat) (sent : Bool) : List StreamStep → List Frame
  | [] => if acc ≠ [] then [Frame.pcm acc] else []
  | step :: rest =>
    if !step.recording then (if acc ≠ [] then [Frame.pcm acc] else [])
    else
      if chunkTruthy step.chunk then
        let acc2 := acc ++ step.chunk.getD []
        if step.flushDue then
          if acc2 ≠ [] then
            if sent then Frame.pcm acc2 :: stream_audio_go hdr [] true rest
            else Frame.header hdr :: Frame.pcm acc2 :: stream_audio_go hdr [] true rest
          else stream_audio_go hdr acc2 sent rest
        else stream_audio_go hdr acc2 sent rest
      else stream_audio_go hdr acc sent rest

/-- One session of `_stream_audio`: starts with empty accumulated audio and
`wav_header_sent = False`; `hdr` is the header built by
`create_wav_header` from the session's fixed audio parameters. -/
def stream_audio (hdr : List Nat) (steps : List StreamStep) : List Frame :=
  stream_audio_go hdr [] false steps

/-- Drain loop of Python `SpeechRecognitionApp._stop_recording`
(src/speech_recognition_app.py lines 175-186), discretised to 0.1-second
ticks: `w` is `max_wait_time` in tenths of a second and `t` the elapsed
tenths since `wait_start_time`.  Each iteration sleeps one tick, then exits
early when `text_inserter.is_typing_session_active` has become false
(`active` gives that flag as a function of elapsed ticks).  Returns the
elapsed tenths at which the loop exits. -/
def drain_loop_go (active : Nat → Bool) : Nat → Nat → Nat
  | 0, t => t
  | rem + 1, t => if active (t + 1) then drain_loop_go active rem (t + 1) else t + 1

/-- Entry into the drain loop at elapsed time `t`: the loop test
`time.time() - wait_start_time < max_wait_time` is `t < w`, so the loop has
`w - t` iterations left at most. -/
def drain_loop (active : Nat → Bool) (w : Nat) (t : Nat) : Nat :=
  drain_loop_go active (w - t) t

/-- Spec-side description of the reconciler's `apply` (spec §4.3), written
from the claim's words and to be compared with `insert_text`: no-op when
the stable text is empty or equals `lastEmitted`; when the stable text
begins with `lastEmitted` after trimming trailing whitespace from the old
value, type only the suffix beyond that prefix when it is non-blank and
then set `lastEmitted` to the new stable text; otherwise type the full
stable text and set `lastEmitted` to it. -/
def apply_spec (st : Inserter) (stableText : Str) : Inserter × Str :=
  if stableText = [] ∨ stableText = st.lastTyped then (st, [])
  else if (pyStripRight st.lastTyped).isPrefixOf stableText then
    let newPart := stableText.drop (pyStripRight st.lastTyped).length
    if pyStrip newPart ≠ [] then ({ st with lastTyped := stableText }, newPart)
    else (st, [])
  else ({ st with lastTyped := stableText }, stableText)

/-- Repeated `insert_text` calls: the final state and the list of
per-call emitted character sequences. -/
def apply_all : Inserter → List Str → Inserter × List Str
  | st, [] => (st, [])
  | st, t :: ts =>
    let r := insert_text st t
    let r2 := apply_all r.1 ts
    (r2.1, r.2 :: r2.2)

/-- Each update extends the previous one as a prefix (the first extends
`prev`). -/
def prefix_chain : Str → List Str → Bool
  | _, [] => true
  | prev, t :: ts => prev.isPrefixOf t && prefix_chain t ts

/-- The successive suffixes: what each update adds beyond the previous
one. -/
def chain_suffixes : Str → List Str → List Str
  | _, [] => []
  | prev, t :: ts => t.drop prev.length :: chain_suffixes t ts

/-- Stable-text normal form: extraction output (`_extract_transcription`)
is trimmed and single-spaced, hence fixed by `_clean_text` and by
`rstrip`. -/
def stable_form (t : Str) : Bool := (clean_text t == t) && (pyStripRight t == t)

/-- Little-endian decoding of a byte list. -/
def decodeLE : List Nat → Nat
  | [] => 0
  | b :: bs => b + 256 * decodeLE bs

/-- Read a little-endian u16 at byte offset `off`. -/
def readU16LE (bs : List Nat) (off : Nat) : Nat := decodeLE ((bs.drop off).take 2)

/-- Read a little-endian u32 at byte offset `off`. -/
def readU32LE (bs : List Nat) (off : Nat) : Nat := decodeLE ((bs.drop off).take 4)

/-- Extraction procedure written from the claim's words (C8): collect the
raw `text` of every line with non-empty text, join with a single space,
collapse every run of two or more spaces into one, trim. -/
def extract_claim (m : Msg) : Str :=
  let parts := m.lines.filterMap fun l =>
    if lineTruthy l.text then some (l.text.getD []) else none
  pyStrip (collapseSpaces (pyJoin [' '] parts))

/-- Amended extraction procedure: additionally trim whitespace from each
collected text, and trim the joined text before collapsing space runs (the
code's order). -/
def extract_spec_amended (m : Msg) : Str :=
  let parts := m.lines.filterMap fun l =>
    if lineTruthy l.text then some (pyStrip (l.text.getD [])) else none
  collapseSpaces (pyStrip (pyJoin [' '] parts))

/-- The claim's description of `_clean_text` (C10): split on whitespace and
rejoin with single spaces, then append one trailing space exactly when the
raw input ends with a space or with one of `"."`, `"!"`, `"?"`, `","`
followed by a space. -/
def clean_spec (text : Str) : Str :=
  let words := pySplit text
  if words = [] then []
  else
    pyJoin [' '] words ++
      (if (([' '] : Str).isSuffixOf text
          || ([ '.', '!', '?', ','].any fun p => ([p, ' '] : Str).isSuffixOf text)) then [' ']
       else [])

/-! ## Theorems -/

theorem replaceTwoSpace_length (s : Str) :
    (replaceTwoSpace s).length ≤ s.length := by
  induction s using replaceTwoSpace.induct with
  | case1 => simp [replaceTwoSpace]
  | case2 c => simp [replaceTwoSpace]
  | case3 c d rest h ih =>
    simp only [replaceTwoSpace, if_pos h, List.length_cons]
    omega
  | case4 c d rest h ih =>
    simp only [replaceTwoSpace, if_neg h, List.length_cons] at ih ⊢
    omega

theorem replaceTwoSpace_length_lt (s : Str) (h : hasTwoSpace s = true) :
    (replaceTwoSpace s).length < s.length := by
  induction s using replaceTwoSpace.induct with
  | case1 => simp [hasTwoSpace] at h
  | case2 c => simp [hasTwoSpace] at h
  | case3 c d rest hcd ih =>
    have := replaceTwoSpace_length rest
    simp only [replaceTwoSpace, if_pos hcd, List.length_cons]
    omega
  | case4 c d rest hcd ih =>
    have hrest : hasTwoSpace (d :: rest) = true := by
      simp only [hasTwoSpace, Bool.or_eq_true, Bool.and_eq_true, decide_eq_true_eq] at h
      rcases h with h | h
      · exact absurd h hcd
      · exact h
    have := ih hrest
    simp only [replaceTwoSpace, if_neg hcd, List.length_cons] at this ⊢
    omega

theorem collapseSpacesFuel_succ (fuel : Nat) :
    ∀ s : Str, s.length ≤ fuel → collapseSpacesFuel (fuel + 1) s = collapseSpacesFuel fuel s := by
  induction fuel with
  | zero =>
    intro s hs
    have : s = [] := List.length_eq_zero.mp (Nat.le_zero.mp hs)
    subst this
    simp [collapseSpacesFuel, hasTwoSpace]
  | succ f ih =>
    intro s hs
    show (if hasTwoSpace s then collapseSpacesFuel (f + 1) (replaceTwoSpace s) else s)
      = (if hasTwoSpace s then collapseSpacesFuel f (replaceTwoSpace s) else s)
    by_cases h : hasTwoSpace s = true
    · have hlt := replaceTwoSpace_length_lt s h
      rw [if_pos h, if_pos h, ih (replaceTwoSpace s) (by omega)]
    · rw [if_neg h, if_neg h]

theorem dropWhile_cons_of_neg (p : Char → Bool) (c : Char) (m : Str) (h : p c = false) :
    List.dropWhile p (c :: m) = c :: m := by
  simp [List.dropWhile_cons, h]

theorem pyStripRight_reverse_head (t : Str) (ht : pyStripRight t = t) (hne : t ≠ []) :
    ∃ c m, t.reverse = c :: m ∧ pyIsSpace c = false := by
  have hrev : t.reverse ≠ [] := by simpa using hne
  obtain ⟨c, m, hcm⟩ := List.exists_cons_of_ne_nil hrev
  refine ⟨c, m, hcm, ?_⟩
  have hdrop : t.reverse.dropWhile pyIsSpace = t.reverse := by
    have := congrArg List.reverse ht
    simpa [pyStripRight] using this
  by_contra hc
  have hc' : pyIsSpace c = true := by
    cases h' : pyIsSpace c with
    | false => exact absurd h' hc
    | true => rfl
  rw [hcm, List.dropWhile_cons, hc'] at hdrop
  have hlen : (List.dropWhile pyIsSpace m).length ≤ m.length :=
    (List.dropWhile_suffix pyIsSpace).length_le
  have := congrArg List.length hdrop
  simp at this
  omega

theorem pyStrip_eq_nil_iff (l : Str) :
    pyStrip l = [] ↔ ∀ c ∈ l, pyIsSpace c = true := by
  constructor
  · intro h c hc
    have h1 : ∀ x ∈ (l.reverse.dropWhile pyIsSpace).reverse, pyIsSpace x = true := by
      intro x hx
      exact List.dropWhile_eq_nil_iff.mp h x hx
    have h2 : ∀ x ∈ l.reverse, pyIsSpace x = true := by
      intro x hx
      rw [← List.takeWhile_append_dropWhile pyIsSpace l.reverse] at hx
      rcases List.mem_append.mp hx with hx | hx
      · exact List.mem_takeWhile_imp hx
      · exact h1 x (List.mem_reverse.mpr hx)
    exact h2 c (List.mem_reverse.mpr hc)
  · intro h
    have h1 : l.reverse.dropWhile pyIsSpace = [] := by
      rw [List.dropWhile_eq_nil_iff]
      intro x hx
      exact h x (List.mem_reverse.mp hx)
    simp [pyStrip, pyStripLeft, pyStripRight, h1]

theorem pySplitAux_words (s : Str) :
    ∀ acc, (∀ c ∈ acc, pyIsSpace c = false) →
      ∀ w ∈ pySplitAux s acc, w ≠ [] ∧ ∀ c ∈ w, pyIsSpace c = false := by
  induction s with
  | nil =>
    intro acc hacc w hw
    by_cases ha : acc = []
    · simp [pySplitAux, ha] at hw
    · simp only [pySplitAux, if_neg ha, List.mem_singleton] at hw
      subst hw
      refine ⟨by simpa using ha, ?_⟩
      intro c hc
      exact hacc c (List.mem_reverse.mp hc)
  | cons c rest ih =>
    intro acc hacc w hw
    by_cases hc : pyIsSpace c = true
    · by_cases ha : acc = []
      · rw [show pySplitAux (c :: rest) acc = pySplitAux rest [] by
          simp [pySplitAux, hc, ha]] at hw
        exact ih [] (by intro x hx; cases hx) w hw
      · rw [show pySplitAux (c :: rest) acc = acc.reverse :: pySplitAux rest [] by
          simp [pySplitAux, hc, ha]] at hw
        rcases List.mem_cons.mp hw with hw | hw
        · subst hw
          refine ⟨by simpa using ha, ?_⟩
          intro x hx
          exact hacc x (List.mem_reverse.mp hx)
        · exact ih [] (by intro x hx; cases hx) w hw
    · have hc' : pyIsSpace c = false := by
        cases h' : pyIsSpace c with
        | false => rfl
        | true => exact absurd h' hc
      rw [show pySplitAux (c :: rest) acc = pySplitAux rest (c :: acc) by
        simp [pySplitAux, hc']] at hw
      refine ih (c :: acc) ?_ w hw
      intro x hx
      rcases List.mem_cons.mp hx with hx | hx
      · subst hx; exact hc'
      · exact hacc x hx

theorem pySplit_words (s : Str) (w : Str) (hw : w ∈ pySplit s) :
    w ≠ [] ∧ ∀ c ∈ w, pyIsSpace c = false :=
  pySplitAux_words s [] (by intro x hx; cases hx) w hw

theorem mem_pyJoin (sep : Str) (ws : List Str) (w : Str) (hw : w ∈ ws) (c : Char) (hc : c ∈ w) :
    c ∈ pyJoin sep ws := by
  induction ws with
  | nil => cases hw
  | cons w0 rest ih =>
    cases rest with
    | nil =>
      rw [List.mem_singleton] at hw
      subst hw
      simpa [pyJoin] using hc
    | cons w1 rest' =>
      rw [show pyJoin sep (w0 :: w1 :: rest') = w0 ++ sep ++ pyJoin sep (w1 :: rest') from rfl]
      rcases List.mem_cons.mp hw with hw | hw
      · subst hw
        exact List.mem_append.mpr (Or.inl (List.mem_append.mpr (Or.inl hc)))
      · exact List.mem_append.mpr (Or.inr (ih hw))

theorem clean_text_eq_join_append (t : Str) (h : pySplit t ≠ []) :
    ∃ r, clean_text t = pyJoin [' '] (pySplit t) ++ r := by
  unfold clean_text
  rw [if_neg h]
  by_cases h1 : (([' '] : Str).isSuffixOf t
      || ([ '.', '!', '?', ','].any fun p => ([p, ' '] : Str).isSuffixOf t)) = true
  · rw [if_pos h1]
    by_cases h2 : (!(([' '] : Str).isSuffixOf (pyJoin [' '] (pySplit t)))) = true
    · exact ⟨[' '], by rw [if_pos h2]⟩
    · exact ⟨[], by rw [if_neg h2, List.append_nil]⟩
  · exact ⟨[], by rw [if_neg h1, List.append_nil]⟩

theorem pyStrip_clean_text_ne_nil (t : Str) (h : clean_text t ≠ []) :
    pyStrip (clean_text t) ≠ [] := by
  have hw : pySplit t ≠ [] := by
    intro hcon
    apply h
    unfold clean_text
    rw [if_pos hcon]
  obtain ⟨w0, rest, hws⟩ := List.exists_cons_of_ne_nil hw
  have hmem : w0 ∈ pySplit t := by rw [hws]; exact List.mem_cons_self w0 rest
  obtain ⟨hw0ne, hw0chars⟩ := pySplit_words t w0 hmem
  obtain ⟨c0, m0, hc0⟩ := List.exists_cons_of_ne_nil hw0ne
  have hc0w : c0 ∈ w0 := by rw [hc0]; exact List.mem_cons_self c0 m0
  have hc0join : c0 ∈ pyJoin [' '] (pySplit t) := mem_pyJoin [' '] (pySplit t) w0 hmem c0 hc0w
  obtain ⟨r, hr⟩ := clean_text_eq_join_append t hw
  have hc0clean : c0 ∈ clean_text t := by
    rw [hr]
    exact List.mem_append.mpr (Or.inl hc0join)
  intro hstrip
  have := (pyStrip_eq_nil_iff (clean_text t)).mp hstrip c0 hc0clean
  rw [hw0chars c0 hc0w] at this
  cases this

theorem insert_text_eq_apply_spec (st : Inserter) (text : Str) :
    insert_text st text = apply_spec st (clean_text text) := by
  by_cases h0 : text = []
  · subst h0
    have hclean : clean_text ([] : Str) = [] := rfl
    rw [hclean]
    simp [insert_text, apply_spec]
  · unfold insert_text
    rw [if_neg h0]
    set c := clean_text text with hc
    by_cases h1 : c = []
    · rw [if_pos h1, h1]
      simp [apply_spec]
    · rw [if_neg h1]
      by_cases h2 : c = st.lastTyped
      · rw [if_pos h2]
        unfold apply_spec
        rw [if_pos (Or.inr h2)]
      · rw [if_neg h2]
        have hor : ¬(c = [] ∨ c = st.lastTyped) := fun hcon => hcon.elim h1 h2
        by_cases h3 : st.lastTyped = []
        · have hstrip : pyStripRight st.lastTyped = [] := by rw [h3]; rfl
          rw [if_neg (fun hcon => hcon.1 h3)]
          unfold apply_spec
          rw [if_neg hor, if_pos (by rw [hstrip]; simp [List.isPrefixOf]), hstrip]
          simp only [List.length_nil, List.drop_zero]
          rw [if_pos (pyStrip_clean_text_ne_nil text (hc ▸ h1))]
        · by_cases h4 : (pyStripRight st.lastTyped).isPrefixOf c = true
          · rw [if_pos ⟨h3, h4⟩]
            unfold apply_spec
            rw [if_neg hor, if_pos h4]
          · rw [if_neg (fun hcon => h4 hcon.2)]
            unfold apply_spec
            rw [if_neg hor, if_neg h4]

theorem stable_form_iff (t : Str) :
    stable_form t = true ↔ clean_text t = t ∧ pyStripRight t = t := by
  simp [stable_form]

theorem pyStrip_drop_ne_nil (p t : Str) (hp : p <+: t) (hne : t ≠ p)
    (hsr : pyStripRight t = t) : pyStrip (t.drop p.length) ≠ [] := by
  obtain ⟨r, hr⟩ := hp
  have hdrop : t.drop p.length = r := by rw [← hr]; exact List.drop_left p r
  have hrne : r ≠ [] := by
    intro hcon
    subst hcon
    exact hne (by rw [← hr, List.append_nil])
  have htne : t ≠ [] := by
    intro hcon
    rw [hcon] at hr
    exact hrne (List.append_eq_nil.mp hr).2
  obtain ⟨c, m, hcm, hcws⟩ := pyStripRight_reverse_head t hsr htne
  obtain ⟨c', m', hr'⟩ := List.exists_cons_of_ne_nil (show r.reverse ≠ [] by simpa using hrne)
  have hrev : t.reverse = c' :: (m' ++ p.reverse) := by
    rw [← hr, List.reverse_append, hr', List.cons_append]
  have hcc : c = c' := by
    rw [hrev] at hcm
    exact (List.cons_eq_cons.mp hcm).1.symm
  have hcr : c ∈ r := by
    rw [← List.mem_reverse, hr', hcc]
    exact List.mem_cons_self c' m'
  rw [hdrop]
  intro hcon
  have := (pyStrip_eq_nil_iff r).mp hcon c hcr
  rw [hcws] at this
  cases this

theorem insert_text_of_eq_last (st : Inserter) (t : Str) (hclean : clean_text t = t)
    (hlast : st.lastTyped = t) : insert_text st t = (st, []) := by
  by_cases h0 : t = []
  · subst h0; simp [insert_text]
  · unfold insert_text
    rw [if_neg h0]
    simp only [hclean]
    rw [if_neg h0, if_pos hlast.symm]

theorem insert_text_extend (st : Inserter) (p t : Str) (hlast : st.lastTyped = p)
    (hsr : pyStripRight p = p) (hclean : clean_text t = t) (hsrt : pyStripRight t = t)
    (hp : p <+: t) (hne : t ≠ p) :
    insert_text st t = ({ st with lastTyped := t }, t.drop p.length) := by
  have htne : t ≠ [] := by
    intro hcon
    subst hcon
    obtain ⟨r, hr⟩ := hp
    exact hne (List.append_eq_nil.mp hr).1.symm
  unfold insert_text
  rw [if_neg htne]
  simp only [hclean]
  rw [if_neg htne, if_neg (fun hcon => hne (hcon.trans hlast))]
  by_cases hpnil : p = []
  · rw [if_neg (fun hcon => hcon.1 (by rw [hlast, hpnil]))]
    rw [hpnil]
    simp
  · rw [if_pos ⟨by rw [hlast]; exact hpnil,
      by rw [hlast, hsr]; exact List.isPrefixOf_iff_prefix.mpr hp⟩]
    simp only [hlast, hsr]
    rw [if_pos (pyStrip_drop_ne_nil p t hp hne hsrt)]

theorem apply_all_chain (ts : List Str) :
    ∀ (st : Inserter) (p : Str), st.lastTyped = p → pyStripRight p = p →
      (∀ t ∈ ts, stable_form t = true) → prefix_chain p ts = true →
      (apply_all st ts).2 = chain_suffixes p ts ∧
      p ++ (chain_suffixes p ts).flatten = (p :: ts).getLastD [] ∧
      ((apply_all st ts).1).lastTyped = (p :: ts).getLastD [] := by
  induction ts with
  | nil =>
    intro st p hlast _hsr _hstable _hchain
    refine ⟨rfl, ?_, ?_⟩
    · simp [chain_suffixes]
    · simpa [apply_all] using hlast
  | cons t ts' ih =>
    intro st p hlast hsr hstable hchain
    obtain ⟨hpt, hchain'⟩ : p.isPrefixOf t = true ∧ prefix_chain t ts' = true := by
      simpa [prefix_chain, Bool.and_eq_true] using hchain
    have hpt' : p <+: t :=  List.isPrefixOf_iff_prefix.mp hpt
    obtain ⟨hcleant, hsrt⟩ := (stable_form_iff t).mp (hstable t (List.mem_cons_self t ts'))
    have hstable' : ∀ u ∈ ts', stable_form u = true := fun u hu =>
      hstable u (List.mem_cons_of_mem t hu)
    have hsuffcons : chain_suffixes p (t :: ts') = t.drop p.length :: chain_suffixes t ts' := rfl
    have hlastcons : ((p :: t :: ts') : List Str).getLastD [] = ((t :: ts') : List Str).getLastD [] :=
      List.getLastD_cons [] p (t :: ts')
    by_cases heq : t = p
    · subst heq
      have hstep : insert_text st t = (st, []) := insert_text_of_eq_last st t hcleant hlast
      obtain ⟨ih1, ih2, ih3⟩ := ih st t hlast hsrt hstable' hchain'
      have happ : apply_all st (t :: ts')
          = ((apply_all st ts').1, [] :: (apply_all st ts').2) := by
        show (let r := insert_text st t
          let r2 := apply_all r.1 ts'
          (r2.1, r.2 :: r2.2)) = _
        rw [hstep]
      refine ⟨?_, ?_, ?_⟩
      · rw [happ, hsuffcons, List.drop_length, ih1]
      · rw [hsuffcons, List.drop_length, hlastcons]
        simpa using ih2
      · rw [happ, hlastcons]
        exact ih3
    · have hstep : insert_text st t = ({ st with lastTyped := t }, t.drop p.length) :=
        insert_text_extend st p t hlast hsr hcleant hsrt hpt' heq
      obtain ⟨ih1, ih2, ih3⟩ := ih { st with lastTyped := t } t rfl hsrt hstable' hchain'
      have happ : apply_all st (t :: ts')
          = ((apply_all { st with lastTyped := t } ts').1,
             t.drop p.length :: (apply_all { st with lastTyped := t } ts').2) := by
        show (let r := insert_text st t
          let r2 := apply_all r.1 ts'
          (r2.1, r.2 :: r2.2)) = _
        rw [hstep]
      have hjoin : p ++ t.drop p.length = t := by
        obtain ⟨r, hr⟩ := hpt'
        rw [← hr, List.drop_left p r]
      refine ⟨?_, ?_, ?_⟩
      · rw [happ, hsuffcons, ih1]
      · rw [hsuffcons, hlastcons, List.flatten_cons, ← List.append_assoc, hjoin]
        exact ih2
      · rw [happ, hlastcons]
        exact ih3

theorem stream_audio_go_sent_no_header (hdr : List Nat) (steps : List StreamStep) :
    ∀ (acc b : List Nat), Frame.header b ∉ stream_audio_go hdr acc true steps := by
  induction steps with
  | nil =>
    intro acc b
    by_cases h : acc ≠ [] <;> simp [stream_audio_go, h]
  | cons step rest ih =>
    intro acc b
    unfold stream_audio_go
    cases hrec : step.recording with
    | false =>
      by_cases h : acc ≠ [] <;> simp [h]
    | true =>
      simp only [Bool.not_true, Bool.false_eq_true, if_false]
      by_cases hct : chunkTruthy step.chunk = true
      · rw [if_pos hct]
        by_cases hflush : step.flushDue = true
        · rw [if_pos hflush]
          by_cases hacc2 : acc ++ step.chunk.getD [] ≠ []
          · rw [if_pos hacc2, if_pos trivial]
            intro hmem
            rcases List.mem_cons.mp hmem with hmem | hmem
            · cases hmem
            · exact ih [] b hmem
          · rw [if_neg hacc2]
            exact ih (acc ++ step.chunk.getD []) b
        · rw [if_neg hflush]
          exact ih (acc ++ step.chunk.getD []) b
      · rw [if_neg hct]
        exact ih acc b

theorem stream_audio_go_unsent_tail_no_header (hdr : List Nat) (steps : List StreamStep) :
    ∀ (acc : List Nat), ∀ f ∈ (stream_audio_go hdr acc false steps).drop 1, f.isHeader = false := by
  induction steps with
  | nil =>
    intro acc f hf
    by_cases h : acc ≠ [] <;> simp [stream_audio_go, h] at hf
  | cons step rest ih =>
    intro acc f hf
    unfold stream_audio_go at hf
    cases hrec : step.recording with
    | false =>
      rw [hrec] at hf
      by_cases h : acc ≠ [] <;> simp [h] at hf
    | true =>
      rw [hrec] at hf
      simp only [Bool.not_true, Bool.false_eq_true, if_false] at hf
      by_cases hct : chunkTruthy step.chunk = true
      · rw [if_pos hct] at hf
        by_cases hflush : step.flushDue = true
        · rw [if_pos hflush] at hf
          by_cases hacc2 : acc ++ step.chunk.getD [] ≠ []
          · rw [if_pos hacc2] at hf
            rw [List.drop_one, List.tail_cons] at hf
            rcases List.mem_cons.mp hf with hf | hf
            · rw [hf]; rfl
            · cases f with
              | header b => exact absurd hf (stream_audio_go_sent_no_header hdr rest [] b)
              | pcm d0 => rfl
          · rw [if_neg hacc2] at hf
            exact ih (acc ++ step.chunk.getD []) f hf
        · rw [if_neg hflush] at hf
          exact ih (acc ++ step.chunk.getD []) f hf
      · rw [if_neg hct] at hf
        exact ih acc f hf

theorem stream_audio_go_header_eq (hdr : List Nat) (steps : List StreamStep) :
    ∀ (acc : List Nat) (sent : Bool) (b : List Nat),
      Frame.header b ∈ stream_audio_go hdr acc sent steps → b = hdr := by
  induction steps with
  | nil =>
    intro acc sent b hb
    by_cases h : acc ≠ [] <;> simp [stream_audio_go, h] at hb
  | cons step rest ih =>
    intro acc sent b hb
    unfold stream_audio_go at hb
    cases hrec : step.recording with
    | false =>
      rw [hrec] at hb
      by_cases h : acc ≠ [] <;> simp [h] at hb
    | true =>
      rw [hrec] at hb
      simp only [Bool.not_true, Bool.false_eq_true, if_false] at hb
      by_cases hct : chunkTruthy step.chunk = true
      · rw [if_pos hct] at hb
        by_cases hflush : step.flushDue = true
        · rw [if_pos hflush] at hb
          by_cases hacc2 : acc ++ step.chunk.getD [] ≠ []
          · rw [if_pos hacc2] at hb
            cases sent with
            | true =>
              rw [if_pos rfl] at hb
              rcases List.mem_cons.mp hb with hb | hb
              · cases hb
              · exact ih [] true b hb
            | false =>
              rw [if_neg (Bool.false_ne_true)] at hb
              rcases List.mem_cons.mp hb with hb | hb
              · exact (Frame.header.injEq b hdr).mp hb
              · rcases List.mem_cons.mp hb with hb | hb
                · cases hb
                · exact absurd hb (stream_audio_go_sent_no_header hdr rest [] b)
          · rw [if_neg hacc2] at hb
            exact ih (acc ++ step.chunk.getD []) sent b hb
        · rw [if_neg hflush] at hb
          exact ih (acc ++ step.chunk.getD []) sent b hb
      · rw [if_neg hct] at hb
        exact ih acc sent b hb

theorem drain_loop_go_le (active : Nat → Bool) :
    ∀ (rem t : Nat), drain_loop_go active rem t ≤ t + rem := by
  intro rem
  induction rem with
  | zero => intro t; simp [drain_loop_go]
  | succ r ih =>
    intro t
    unfold drain_loop_go
    by_cases h : active (t + 1) = true
    · rw [if_pos h]
      have := ih (t + 1)
      omega
    · rw [if_neg h]
      omega

theorem drain_loop_go_early (active : Nat → Bool) (k : Nat) (hk : active k = false) :
    ∀ (rem t : Nat), t < k → drain_loop_go active rem t ≤ k := by
  intro rem
  induction rem with
  | zero => intro t ht; simpa [drain_loop_go] using Nat.le_of_lt ht
  | succ r ih =>
    intro t ht
    unfold drain_loop_go
    by_cases h : active (t + 1) = true
    · rw [if_pos h]
      have hne : t + 1 ≠ k := by
        intro hcon
        rw [hcon] at h
        rw [hk] at h
        cases h
      exact ih (t + 1) (by omega)
    · rw [if_neg h]
      omega

theorem create_wav_header_bytes (r c s : Nat) :
    create_wav_header r c s =
      82 :: 73 :: 70 :: 70 :: 255 :: 255 :: 255 :: 255 :: 87 :: 65 :: 86 :: 69
        :: 102 :: 109 :: 116 :: 32 :: 16 :: 0 :: 0 :: 0 :: 1 :: 0
        :: c / 1 % 256 :: c / 256 % 256
        :: r / 1 % 256 :: r / 256 % 256 :: r / 65536 % 256 :: r / 16777216 % 256
        :: r * c * s / 1 % 256 :: r * c * s / 256 % 256
        :: r * c * s / 65536 % 256 :: r * c * s / 16777216 % 256
        :: c * s / 1 % 256 :: c * s / 256 % 256
        :: s * 8 / 1 % 256 :: s * 8 / 256 % 256
        :: 100 :: 97 :: 116 :: 97 :: 255 :: 255 :: 255 :: 255 :: [] := rfl

theorem listen_delivered_eq_takeWhile (raws : List RawMsg) :
    listen_delivered raws = (raws.takeWhile RawMsg.isOk).filterMap RawMsg.decoded := by
  induction raws with
  | nil => rfl
  | cons r rest ih =>
    cases r with
    | ok m =>
      simp [listen_delivered, List.takeWhile_cons, RawMsg.isOk, RawMsg.decoded, ih]
    | malformed =>
      simp [listen_delivered, List.takeWhile_cons, RawMsg.isOk]

theorem extract_transcription_eq_amended (m : Msg) :
    extract_transcription m = extract_spec_amended m := by
  simp only [extract_transcription, extract_spec_amended]
  by_cases h : (m.lines.filterMap fun l =>
      if lineTruthy l.text then some (pyStrip (l.text.getD [])) else none) = []
  · rw [if_pos h, h]
    rfl
  · rw [if_neg h]

theorem singleton_suffix_iff (x : Char) (l : Str) : [x] <:+ l ↔ l.getLast? = some x := by
  constructor
  · rintro ⟨u, rfl⟩
    rw [List.getLast?_append_of_ne_nil u (by simp)]
    rfl
  · intro h
    exact ⟨l.dropLast, List.dropLast_append_getLast? x (Option.mem_def.mpr h)⟩

theorem pyJoin_cons_ne_nil (sep : Str) (w : Str) (ws : List Str) (hw : w ≠ []) :
    pyJoin sep (w :: ws) ≠ [] := by
  cases ws with
  | nil => simpa [pyJoin] using hw
  | cons w1 rest =>
    show w ++ sep ++ pyJoin sep (w1 :: rest) ≠ []
    intro hcon
    rw [List.append_eq_nil, List.append_eq_nil] at hcon
    exact hw hcon.1.1

theorem join_endswith_space_false :
    ∀ ws : List Str, (∀ w ∈ ws, w ≠ [] ∧ ∀ c ∈ w, pyIsSpace c = false) →
      (([' '] : Str).isSuffixOf (pyJoin [' '] ws)) = false := by
  intro ws
  induction ws with
  | nil => intro _; decide
  | cons w rest ih =>
    intro hws
    cases rest with
    | nil =>
      cases hsuf : (([' '] : Str).isSuffixOf (pyJoin [' '] [w])) with
      | false => rfl
      | true =>
        exfalso
        obtain ⟨u, hu⟩ := List.isSuffixOf_iff_suffix.mp hsuf
        have hsp : (' ' : Char) ∈ w := by
          have : (' ' : Char) ∈ pyJoin [' '] [w] := by
            rw [← hu]
            exact List.mem_append.mpr (Or.inr (List.mem_singleton.mpr rfl))
          simpa [pyJoin] using this
        have := (hws w (List.mem_cons_self w [])).2 (' ') hsp
        simp [pyIsSpace] at this
    | cons w1 rest' =>
      cases hsuf : (([' '] : Str).isSuffixOf (pyJoin [' '] (w :: w1 :: rest'))) with
      | false => rfl
      | true =>
        exfalso
        have hsuf' : ([' '] : Str) <:+ pyJoin [' '] (w :: w1 :: rest') :=
          List.isSuffixOf_iff_suffix.mp hsuf
        have hlast : (pyJoin [' '] (w :: w1 :: rest')).getLast? = some ' ' :=
          (singleton_suffix_iff (' ') (pyJoin [' '] (w :: w1 :: rest'))).mp hsuf'
        have hrest_ne : pyJoin [' '] (w1 :: rest') ≠ [] :=
          pyJoin_cons_ne_nil [' '] w1 rest'
            (hws w1 (List.mem_cons_of_mem w (List.mem_cons_self w1 rest'))).1
        have heq : (pyJoin [' '] (w :: w1 :: rest')).getLast?
            = (pyJoin [' '] (w1 :: rest')).getLast? := by
          show ((w ++ [' ']) ++ pyJoin [' '] (w1 :: rest')).getLast? = _
          exact List.getLast?_append_of_ne_nil (w ++ [' ']) hrest_ne
        have hih : (([' '] : Str).isSuffixOf (pyJoin [' '] (w1 :: rest'))) = false :=
          ih fun u hu => hws u (List.mem_cons_of_mem w hu)
        have : ([' '] : Str) <:+ pyJoin [' '] (w1 :: rest') :=
          (singleton_suffix_iff (' ') (pyJoin [' '] (w1 :: rest'))).mpr (heq ▸ hlast)
        rw [List.isSuffixOf_iff_suffix.mpr this] at hih
        cases hih

theorem clean_text_eq_clean_spec (t : Str) : clean_text t = clean_spec t := by
  unfold clean_text clean_spec
  by_cases h : pySplit t = []
  · rw [if_pos h, if_pos h]
  · rw [if_neg h, if_neg h]
    have hnosp : (([' '] : Str).isSuffixOf (pyJoin [' '] (pySplit t))) = false :=
      join_endswith_space_false (pySplit t) (fun w hw => pySplit_words t w hw)
    by_cases hcond : (([' '] : Str).isSuffixOf t
        || ([ '.', '!', '?', ','].any fun p => ([p, ' '] : Str).isSuffixOf t)) = true
    · rw [if_pos hcond, if_pos hcond, if_pos (by rw [hnosp]; rfl)]
    · rw [if_neg hcond, if_neg hcond, List.append_nil]

/-- Claim C1, counterexample: the claim says a single malformed message is
skipped and subsequent messages are still delivered, so on the stream
`[malformed, ok m]` it predicts delivery `[m]`; the code delivers nothing,
because the `try` block wraps the whole `async for` loop and the decode
error ends it. -/
theorem C1_counterexample :
    listen_delivered [RawMsg.malformed, RawMsg.ok ⟨[], []⟩] = [] ∧
    listen_delivered [RawMsg.malformed, RawMsg.ok ⟨[], []⟩] ≠ [⟨[], []⟩] := by
  constructor
  · rfl
  · decide

/-- Claim C1 (amended): for every inbound stream, `listen_for_messages`
delivers exactly the decoded messages strictly before the first malformed
one; a malformed message is logged and terminates the receive sequence (it
is not skipped, and no later message is delivered). -/
theorem C1_malformed_message_ends_receive_loop (raws : List RawMsg) :
    listen_delivered raws = (raws.takeWhile RawMsg.isOk).filterMap RawMsg.decoded :=
  listen_delivered_eq_takeWhile raws

/-- Claim C2: `insert_text` implements the spec's `apply` contract on the
cleaned stable text — no-op when the text is empty or equals
`last_typed_text`; when it begins with the previous text after trimming its
trailing whitespace, only the non-blank suffix is typed and
`last_typed_text` is updated; otherwise the full text is typed. -/
theorem C2_insert_text_refines_apply_spec (st : Inserter) (text : Str) :
    insert_text st text = apply_spec st (clean_text text) :=
  insert_text_eq_apply_spec st text

/-- Claim C3: for stable-text updates in extraction normal form where each
update extends the previous one as a prefix, the reconciler started by
`start_typing_session` emits exactly the successive suffixes, and the
concatenation of everything emitted equals the last update. -/
theorem C3_prefix_chain_emits_only_suffixes (ts : List Str) (st0 : Inserter)
    (hstable : ∀ t ∈ ts, stable_form t = true)
    (hchain : prefix_chain [] ts = true) :
    (apply_all (start_typing_session st0) ts).2 = chain_suffixes [] ts ∧
    ((apply_all (start_typing_session st0) ts).2).flatten = ts.getLastD [] := by
  obtain ⟨h1, h2, _⟩ := apply_all_chain ts (start_typing_session st0) [] rfl rfl hstable hchain
  refine ⟨h1, ?_⟩
  rw [h1]
  rw [List.getLastD_cons] at h2
  simpa using h2

/-- Claim C3 witness: the spec's own example chain
`"hello wor" → "hello world"` emits `"hello wor"` then `"ld"`. -/
theorem C3_witness :
    (apply_all (start_typing_session ⟨[], false⟩)
        ["hello wor".toList, "hello world".toList]).2
      = chain_suffixes [] ["hello wor".toList, "hello world".toList] ∧
    ((apply_all (start_typing_session ⟨[], false⟩)
        ["hello wor".toList, "hello world".toList]).2).flatten
      = (["hello wor".toList, "hello world".toList] : List Str).getLastD [] :=
  C3_prefix_chain_emits_only_suffixes _ _ (by decide) (by decide)

/-- Claim C4, counterexample: a session that ends before the first timed
flush sends its accumulated audio as a PCM frame with no header at all, so
the header is not sent exactly once and does not precede every PCM frame. -/
theorem C4_counterexample :
    stream_audio (create_wav_header 16000 1 2) [⟨true, some [1, 2], false⟩]
      = [Frame.pcm [1, 2]] ∧
    (stream_audio (create_wav_header 16000 1 2)
        [⟨true, some [1, 2], false⟩]).countP (fun f => f.isHeader) = 0 := by
  constructor
  · rfl
  · rfl

/-- Claim C4 (amended): per session the send loop emits the header at most
once; when a header frame is present it is the very first frame sent (every
frame after the first is a PCM frame), and any header frame carries exactly
the `create_wav_header` bytes of the session's fixed audio parameters —
but the post-loop final flush can emit a PCM frame with no header ever
having been sent. -/
theorem C4_header_at_most_once_and_first (r c s : Nat) (steps : List StreamStep) :
    (∀ f ∈ (stream_audio (create_wav_header r c s) steps).drop 1, f.isHeader = false) ∧
    (stream_audio (create_wav_header r c s) steps).countP (fun f => f.isHeader) ≤ 1 ∧
    (∀ b, Frame.header b ∈ stream_audio (create_wav_header r c s) steps
      → b = create_wav_header r c s) := by
  refine ⟨stream_audio_go_unsent_tail_no_header (create_wav_header r c s) steps [], ?_,
    fun b hb => stream_audio_go_header_eq (create_wav_header r c s) steps [] false b hb⟩
  cases hout : stream_audio (create_wav_header r c s) steps with
  | nil => simp
  | cons f0 rest =>
    have hrest : ∀ f ∈ rest, f.isHeader = false := by
      intro f hf
      apply stream_audio_go_unsent_tail_no_header (create_wav_header r c s) steps []
      rw [show stream_audio_go (create_wav_header r c s) [] false steps = f0 :: rest from hout]
      simpa using hf
    rw [List.countP_cons]
    have h0 : rest.countP (fun f => f.isHeader) = 0 :=
      List.countP_eq_zero.mpr (by intro f hf; simpa using hrest f hf)
    rw [h0]
    by_cases hf0 : f0.isHeader = true
    · simp [hf0]
    · simp [hf0]

/-- Claim C4 witness: a trace with one flushed chunk sends the header
frame and at most one header is counted. -/
theorem C4_witness :
    (stream_audio (create_wav_header 16000 1 2)
        [⟨true, some [9], true⟩, ⟨false, none, false⟩]).countP (fun f => f.isHeader) ≤ 1 :=
  (C4_header_at_most_once_and_first 16000 1 2
    [⟨true, some [9], true⟩, ⟨false, none, false⟩]).2.1

/-- Claim C5, counterexample: on a disconnected client `send_audio`
returns silently without sending and without raising — it does not fail
with a `SendError` as the claim states. -/
theorem C5_counterexample :
    send_audio ⟨true, false⟩ true = (⟨true, false⟩, SendOutcome.noop) ∧
    (send_audio ⟨true, false⟩ true).2 ≠ SendOutcome.raised := by
  constructor
  · rfl
  · decide

/-- Claim C5 (amended): when the client is disconnected (no socket or
`is_connected` false) `send_audio` is a silent no-op; when connected, a
failing underlying send sets `is_connected := false` and propagates the
exception (no retry), and a successful send leaves the state unchanged. -/
theorem C5_send_audio_behaviour (c : WSClient) (sendOk : Bool) :
    (¬(c.hasSocket = true ∧ c.isConnected = true) →
      send_audio c sendOk = (c, SendOutcome.noop)) ∧
    (c.hasSocket = true → c.isConnected = true → sendOk = false →
      send_audio c sendOk = ({ c with isConnected := false }, SendOutcome.raised)) ∧
    (c.hasSocket = true → c.isConnected = true → sendOk = true →
      send_audio c sendOk = (c, SendOutcome.sent)) := by
  unfold send_audio
  refine ⟨fun h => ?_, fun h1 h2 h3 => ?_, fun h1 h2 h3 => ?_⟩
  · rw [if_neg (by simpa [Bool.and_eq_true] using h)]
  · subst h3
    rw [if_pos (by simp [Bool.and_eq_true, h1, h2])]
    rfl
  · subst h3
    rw [if_pos (by simp [Bool.and_eq_true, h1, h2])]
    rfl

/-- Claim C5 witness: a concrete disconnected client for which
`send_audio` is a silent no-op. -/
theorem C5_witness :
    send_audio ⟨true, false⟩ false = (⟨true, false⟩, SendOutcome.noop) :=
  (C5_send_audio_behaviour ⟨true, false⟩ false).1 (by decide)

/-- Claim C6, counterexample: a `ready_to_stop` message whose extracted
final text is blank leaves the handler doing nothing — in particular the
typing session is NOT ended, contradicting the claim that the terminal
event always behaves as a final apply followed by `endSession`. -/
theorem C6_counterexample :
    (handle_message ⟨[], true⟩ ⟨"ready_to_stop".toList, []⟩).1.sessionActive = true ∧
    handle_message ⟨[], true⟩ ⟨"ready_to_stop".toList, []⟩ = (⟨[], true⟩, []) := by
  constructor
  · rfl
  · rfl

/-- Claim C6 (amended): on each observed `ready_to_stop` event with a
non-blank extracted final text the handler behaves as a final
`insert_text` of that text followed by `end_typing_session`; when the
extracted final text is blank, neither the apply nor the session end
happens and the typing session stays active. -/
theorem C6_ready_to_stop_final_apply (st : Inserter) (m : Msg)
    (hty : m.msgType = "ready_to_stop".toList) :
    (pyStrip (extract_transcription m) ≠ [] →
      handle_message st m
        = (end_typing_session (insert_text st (extract_transcription m)).1,
           (insert_text st (extract_transcription m)).2)) ∧
    (pyStrip (extract_transcription m) = [] → handle_message st m = (st, [])) := by
  unfold handle_message
  rw [if_pos hty]
  constructor
  · intro h
    rw [if_pos h]
  · intro h
    rw [if_neg (fun hcon => hcon h)]

/-- Claim C6 witness: a terminal event carrying final text `"hi"` types
`"hi"` and marks the session inactive. -/
theorem C6_witness :
    handle_message ⟨[], true⟩ ⟨"ready_to_stop".toList, [⟨some "hi".toList⟩]⟩
      = (⟨"hi".toList, false⟩, "hi".toList) := by
  have h := (C6_ready_to_stop_final_apply ⟨[], true⟩
    ⟨"ready_to_stop".toList, [⟨some "hi".toList⟩]⟩ rfl).1 (by decide)
  have hE : extract_transcription ⟨"ready_to_stop".toList, [⟨some "hi".toList⟩]⟩
      = "hi".toList := by decide
  rw [hE] at h
  rw [h]
  decide

/-- Claim C7: for all inputs accepted by `int.to_bytes` the WAV header is
exactly 44 bytes with the RIFF/WAVE/fmt/data layout, sizes `0xFFFFFFFF`,
chunk size 16, PCM format 1, and little-endian channel count, sample rate,
byte rate, block align and bits-per-sample fields. -/
theorem C7_wav_header_layout (r c s : Nat)
    (hc : c < 65536) (hr : r < 4294967296) (hbr : r * c * s < 4294967296)
    (hba : c * s < 65536) (hbs : s * 8 < 65536) :
    (create_wav_header r c s).length = 44 ∧
    (create_wav_header r c s).take 4 = asciiBytes "RIFF" ∧
    readU32LE (create_wav_header r c s) 4 = 4294967295 ∧
    ((create_wav_header r c s).drop 8).take 4 = asciiBytes "WAVE" ∧
    ((create_wav_header r c s).drop 12).take 4 = asciiBytes "fmt " ∧
    readU32LE (create_wav_header r c s) 16 = 16 ∧
    readU16LE (create_wav_header r c s) 20 = 1 ∧
    readU16LE (create_wav_header r c s) 22 = c ∧
    readU32LE (create_wav_header r c s) 24 = r ∧
    readU32LE (create_wav_header r c s) 28 = r * c * s ∧
    readU16LE (create_wav_header r c s) 32 = c * s ∧
    readU16LE (create_wav_header r c s) 34 = s * 8 ∧
    ((create_wav_header r c s).drop 36).take 4 = asciiBytes "data" ∧
    readU32LE (create_wav_header r c s) 40 = 4294967295 := by
  rw [create_wav_header_bytes]
  refine ⟨rfl, rfl, ?_, rfl, rfl, ?_, ?_, ?_, ?_, ?_, ?_, ?_, rfl, ?_⟩
  · show decodeLE [255, 255, 255, 255] = 4294967295
    rfl
  · show decodeLE [16, 0, 0, 0] = 16
    rfl
  · show decodeLE [1, 0] = 1
    rfl
  · show decodeLE [c / 1 % 256, c / 256 % 256] = c
    simp only [decodeLE]
    omega
  · show decodeLE [r / 1 % 256, r / 256 % 256, r / 65536 % 256, r / 16777216 % 256] = r
    simp only [decodeLE]
    omega
  · show decodeLE [r * c * s / 1 % 256, r * c * s / 256 % 256,
      r * c * s / 65536 % 256, r * c * s / 16777216 % 256] = r * c * s
    simp only [decodeLE]
    generalize hg : r * c * s = br
    rw [hg] at hbr
    omega
  · show decodeLE [c * s / 1 % 256, c * s / 256 % 256] = c * s
    simp only [decodeLE]
    generalize hg : c * s = ba
    rw [hg] at hba
    omega
  · show decodeLE [s * 8 / 1 % 256, s * 8 / 256 % 256] = s * 8
    simp only [decodeLE]
    omega
  · show decodeLE [255, 255, 255, 255] = 4294967295
    rfl

/-- Claim C7 witness: for sampleRate 16000, 1 channel, sample width 2 the
header is 44 bytes and decodes to byteRate 32000, blockAlign 2,
bitsPerSample 16. -/
theorem C7_witness :
    (create_wav_header 16000 1 2).length = 44 ∧
    readU32LE (create_wav_header 16000 1 2) 28 = 32000 ∧
    readU16LE (create_wav_header 16000 1 2) 32 = 2 ∧
    readU16LE (create_wav_header 16000 1 2) 34 = 16 := by
  have h := C7_wav_header_layout 16000 1 2 (by norm_num) (by norm_num) (by norm_num)
    (by norm_num) (by norm_num)
  refine ⟨h.1, ?_, ?_, ?_⟩
  · exact (h.2.2.2.2.2.2.2.2.2.1).trans (by norm_num)
  · exact (h.2.2.2.2.2.2.2.2.2.2.1).trans (by norm_num)
  · exact (h.2.2.2.2.2.2.2.2.2.2.2.1).trans (by norm_num)

/-- Claim C8, counterexample: on a message whose first line text ends with
a tab, the code (which strips each collected line text) yields `"a b"`
while the claim's procedure (join raw texts, collapse space runs, trim)
yields `"a\t b"`. -/
theorem C8_counterexample :
    extract_transcription ⟨[], [⟨some "a\t".toList⟩, ⟨some "b".toList⟩]⟩ = "a b".toList ∧
    extract_claim ⟨[], [⟨some "a\t".toList⟩, ⟨some "b".toList⟩]⟩ = "a\t b".toList ∧
    extract_transcription ⟨[], [⟨some "a\t".toList⟩, ⟨some "b".toList⟩]⟩
      ≠ extract_claim ⟨[], [⟨some "a\t".toList⟩, ⟨some "b".toList⟩]⟩ := by
  refine ⟨by rfl, by rfl, by decide⟩

/-- Claim C8 (amended): the extracted stable text equals the result of
collecting the `text` of every line with non-empty text, trimming each
collected text, joining with a single space, trimming, and collapsing every
run of two or more spaces into one. -/
theorem C8_extraction_rule_amended (m : Msg) :
    extract_transcription m = extract_spec_amended m :=
  extract_transcription_eq_amended m

/-- Claim C9: in the discrete-tick model (one 0.1 s sleep per iteration)
the drain loop exits at or before `max_wait_time` even if the session never
becomes inactive, and exits at or before the first tick at which the typing
session has been marked inactive. -/
theorem C9_drain_terminates (active : Nat → Bool) (w : Nat) :
    drain_loop active w 0 ≤ w ∧
    ∀ k, 0 < k → active k = false → drain_loop active w 0 ≤ k := by
  constructor
  · have h := drain_loop_go_le active (w - 0) 0
    simpa [drain_loop] using h
  · intro k hk ha
    exact drain_loop_go_early active k ha (w - 0) 0 hk

/-- Claim C9 witness: with a 10-second timeout (100 ticks) and the session
becoming inactive at tick 2, the drain loop exits by tick 2. -/
theorem C9_witness :
    drain_loop (fun k => k != 2) 100 0 ≤ 100 ∧
    drain_loop (fun k => k != 2) 100 0 ≤ 2 :=
  ⟨(C9_drain_terminates (fun k => k != 2) 100).1,
   (C9_drain_terminates (fun k => k != 2) 100).2 2 (by decide) (by decide)⟩

/-- Claim C10: `_clean_text` splits on whitespace, rejoins with single
spaces, and appends one trailing space exactly when the raw input ends with
a space or with `"."`, `"!"`, `"?"`, `","` followed by a space; as a
consequence the typed output for `"hello "` ends with a trailing space that
is not part of the trimmed stable text `"hello"`. -/
theorem C10_clean_text_normalisation :
    (∀ t : Str, clean_text t = clean_spec t) ∧
    (insert_text ⟨[], true⟩ ("hello ".toList)).2 = "hello ".toList ∧
    ([' '] : Str).isSuffixOf (insert_text ⟨[], true⟩ ("hello ".toList)).2 = true ∧
    pyStrip ("hello ".toList) = "hello".toList := by
  refine ⟨clean_text_eq_clean_spec, by decide, by decide, by decide⟩

